import Mathlib

/-!
Shallow embedding of the nFit numeric pipeline (src/examples/animate-nfit.py):
profile-name decoding, exponential smoothing, percentile extraction, daily
aggregation and least-squares trend fitting, over exact rationals
(`ℚ` for floats, `Option ℚ` for possibly-undefined / NaN samples).
-/

namespace NFit

/-! ### Profile-name decoding (get_percentile_from_name, get_w_value_from_name) -/

/-- Numeric value of a run of decimal digit characters, most significant first. -/
def digitsVal (ds : List Char) : Nat :=
  ds.foldl (fun acc c => acc * 10 + (c.toNat - 48)) 0

/-- Leftmost match of the regular-expression pattern hyphen, digits, W
(Python `re.search` with `-(\d+)W`); returns the captured digit group's value. -/
def searchHyphenW : List Char → Option Nat
  | [] => none
  | '-' :: rest =>
      let ds := rest.takeWhile Char.isDigit
      if ds ≠ [] ∧ (rest.dropWhile Char.isDigit).head? = some 'W' then some (digitsVal ds)
      else searchHyphenW rest
  | _ :: rest => searchHyphenW rest

/-- Leftmost match of `P(\d+)`: value of the digit run following the first
`P` that is immediately followed by at least one digit. -/
def searchPnum : List Char → Option Nat
  | [] => none
  | 'P' :: rest =>
      let ds := rest.takeWhile Char.isDigit
      if ds ≠ [] then some (digitsVal ds) else searchPnum rest
  | _ :: rest => searchPnum rest

/-- Leftmost match of `W(\d+)`: value of the digit run following the first
`W` that is immediately followed by at least one digit. -/
def searchWnum : List Char → Option Nat
  | [] => none
  | 'W' :: rest =>
      let ds := rest.takeWhile Char.isDigit
      if ds ≠ [] then some (digitsVal ds) else searchWnum rest
  | _ :: rest => searchWnum rest

/-- Values of the maximal digit runs of the string, left to right
(Python `re.findall` with `\d+`); the accumulator holds the run in progress. -/
def digitRunsAux : List Char → Option Nat → List Nat
  | [], none => []
  | [], some acc => [acc]
  | c :: rest, none =>
      if c.isDigit then digitRunsAux rest (some (c.toNat - 48))
      else digitRunsAux rest none
  | c :: rest, some acc =>
      if c.isDigit then digitRunsAux rest (some (acc * 10 + (c.toNat - 48)))
      else acc :: digitRunsAux rest none

def digitRuns (s : List Char) : List Nat := digitRunsAux s none

/-- Fallback scan of `get_percentile_from_name`: walk the digit runs from last
to first and return the first whose value lies in [70, 100]; default 90. -/
def scanDigitRuns (profile_name : String) : Nat :=
  match (digitRuns profile_name.data).reverse.find? (fun num => 70 ≤ num && num ≤ 100) with
  | some num => num
  | none => 90

/-- `get_percentile_from_name` of the source: hyphen-digits-W pattern first,
then `P`-digits restricted to [0, 100], then the digit-run scan, default 90. -/
def get_percentile_from_name (profile_name : String) : Nat :=
  match searchHyphenW profile_name.data with
  | some v => v
  | none =>
    match searchPnum profile_name.data with
    | some val => if 0 ≤ val ∧ val ≤ 100 then val else scanDigitRuns profile_name
    | none => scanDigitRuns profile_name

/-- `get_w_value_from_name` of the source: `W`-digits value floored at 1, else 1. -/
def get_w_value_from_name (profile_name : String) : Nat :=
  match searchWnum profile_name.data with
  | some val => max 1 val
  | none => 1

/-! ### Smoother: pandas `ewm(alpha, adjust=False, ignore_na=True).mean()` -/

/-- One step of the EMA recurrence with carried state (the previous output,
`none` while no defined sample has been seen): a defined sample `v` yields
`alpha * v + (1 - alpha) * s`, seeding with `v` itself when no state exists;
an undefined sample carries the state forward unchanged. -/
def emaStep (alpha : ℚ) (state x : Option ℚ) : Option ℚ :=
  match x, state with
  | none, _ => state
  | some v, none => some v
  | some v, some s => some (alpha * v + (1 - alpha) * s)

def ewmaAux (alpha : ℚ) (state : Option ℚ) : List (Option ℚ) → List (Option ℚ)
  | [] => []
  | x :: rest => emaStep alpha state x :: ewmaAux alpha (emaStep alpha state x) rest

/-- Exponentially weighted moving average of a sequence with possibly
undefined (NaN) samples, `adjust=False, ignore_na=True` semantics. -/
def ewma (alpha : ℚ) (xs : List (Option ℚ)) : List (Option ℚ) := ewmaAux alpha none xs

/-! ### PercentileExtractor: `np.percentile` with linear interpolation -/

/-- `np.percentile(xs, p)` with the default linear interpolation between
order statistics: undefined (`none`) on an empty sequence or `p` outside
[0, 100] (numpy raises in both cases). -/
def percentileQ (xs : List ℚ) (p : ℚ) : Option ℚ :=
  if xs = [] then none
  else if p < 0 ∨ 100 < p then none
  else
    let s := List.insertionSort (· ≤ ·) xs
    let n := xs.length
    let rank : ℚ := p * ((n : ℚ) - 1) / 100
    let lo : Nat := (⌊rank⌋).toNat
    let hi : Nat := (⌈rank⌉).toNat
    let frac : ℚ := rank - (lo : ℚ)
    some (s.getD lo 0 + frac * (s.getD hi 0 - s.getD lo 0))

/-! ### DailyAggregator: the daily-P95 loop of the source -/

/-- The daily 95th-percentile aggregation loop: for each day bucket of
`points_per_day` consecutive samples, if the bucket is non-empty record
`(day_idx + 0.5, P95 of the bucket)`; empty buckets produce no entry. -/
def daily_p95 (points_per_day num_days : Nat) (ys : List ℚ) : List (ℚ × ℚ) :=
  (List.range num_days).filterMap (fun day_idx =>
    let day_data := (ys.drop (day_idx * points_per_day)).take points_per_day
    if day_data = [] then none
    else (percentileQ day_data 95).map (fun v => ((day_idx : ℚ) + 1/2, v)))

/-! ### TrendEstimator: `np.polyfit(t, v, 1)` closed-form least squares -/

/-- Degree-1 least-squares fit `(slope, intercept)` over paired points,
via the closed-form normal-equation solution; `none` when the design is
singular (all abscissae equal, which includes fewer than two points). -/
def linfit (pts : List (ℚ × ℚ)) : Option (ℚ × ℚ) :=
  let n : ℚ := pts.length
  let st := (pts.map (fun q => q.1)).sum
  let sv := (pts.map (fun q => q.2)).sum
  let stt := (pts.map (fun q => q.1 * q.1)).sum
  let stv := (pts.map (fun q => q.1 * q.2)).sum
  let d := n * stt - st * st
  if d = 0 then none
  else
    let slope := (n * stv - st * sv) / d
    some (slope, (sv - slope * st) / n)

/-- The source guards the regression with `num_daily_points_to_show > 1`:
with one or zero daily points no trend line is produced. -/
def trend_of (daily : List (ℚ × ℚ)) : Option (ℚ × ℚ) :=
  if 1 < daily.length then linfit daily else none

/-! ### Per-profile Pxx display (display_profile_pxx, numeric core) -/

/-- Numeric core of `display_profile_pxx`: re-smooth the profile's EMA series
with `span = get_w_value_from_name` (pandas `ewm(span=w)`, i.e.
`alpha = 2/(w+1)`), drop undefined values, and take the decoded percentile;
`none` when the base EMA or the re-smoothed sequence is empty. -/
def display_pxx (profile_name : String) (original_ema_series : List (Option ℚ)) : Option ℚ :=
  let percentile_val := get_percentile_from_name profile_name
  let w_span := get_w_value_from_name profile_name
  if original_ema_series = [] then none
  else
    let smoothed_for_pxx := (ewma (2 / ((w_span : ℚ) + 1)) original_ema_series).filterMap id
    if smoothed_for_pxx = [] then none
    else percentileQ smoothed_for_pxx (percentile_val : ℚ)

/-! ### Engine-level profile selection -/

/-- Profiles whose computed EMA sequence is non-empty (`active_profile_emas`). -/
def active_profiles (ps : List (String × List (Option ℚ))) : List (String × List (Option ℚ)) :=
  ps.filter (fun q => decide (q.2 ≠ []))

/-- `last_active_profile_name` selection of the source: walk the configured
order backwards and pick the first profile with a non-empty EMA sequence. -/
def last_active (ps : List (String × List (Option ℚ))) : Option (String × List (Option ℚ)) :=
  ps.reverse.find? (fun q => decide (q.2 ≠ []))

/-- Per-profile Pxx entries: one entry per active profile, in configured order. -/
def pxx_by_profile (ps : List (String × List (Option ℚ))) : List (String × Option ℚ) :=
  (active_profiles ps).map (fun q => (q.1, display_pxx q.1 q.2))

/-! ### Spec-side statistical definitions (for the trend claims) -/

/-- Mean of a list of rationals. -/
def meanL (xs : List ℚ) : ℚ := xs.sum / xs.length

/-- Sample covariance (biased, divided by `n`) of paired lists. -/
def covL (pts : List (ℚ × ℚ)) : ℚ :=
  ((pts.map (fun q =>
    (q.1 - meanL (pts.map (fun r => r.1))) * (q.2 - meanL (pts.map (fun r => r.2))))).sum)
    / pts.length

/-- Sample variance (biased, divided by `n`) of the abscissae. -/
def varL (pts : List (ℚ × ℚ)) : ℚ :=
  ((pts.map (fun q => (q.1 - meanL (pts.map (fun r => r.1))) ^ 2)).sum) / pts.length

/-- Sum of squared residuals of the line `v = a * t + b` over the points. -/
def sse (pts : List (ℚ × ℚ)) (a b : ℚ) : ℚ :=
  (pts.map (fun q => (q.2 - (a * q.1 + b)) ^ 2)).sum

/-! ### Lemmas about the smoother -/

lemma ewmaAux_length (alpha : ℚ) (xs : List (Option ℚ)) :
    ∀ st, (ewmaAux alpha st xs).length = xs.length := by
  induction xs with
  | nil => intro st; rfl
  | cons x rest ih => intro st; simp [ewmaAux, ih]

lemma ewmaAux_getD_succ (alpha : ℚ) (xs : List (Option ℚ)) :
    ∀ (st : Option ℚ) (t : ℕ), t + 1 < xs.length →
      (ewmaAux alpha st xs).getD (t+1) none
        = emaStep alpha ((ewmaAux alpha st xs).getD t none) (xs.getD (t+1) none) := by
  induction xs with
  | nil => intro st t ht; simp at ht
  | cons x rest ih =>
    intro st t ht
    match t with
    | 0 =>
      cases rest with
      | nil => simp at ht
      | cons r rest' => simp [ewmaAux]
    | Nat.succ t' =>
      have hlt : t' + 1 < rest.length := by simpa using ht
      simpa [ewmaAux] using ih (emaStep alpha st x) t' hlt

lemma ewma_getD_succ (alpha : ℚ) (x : List (Option ℚ)) (t : ℕ) (ht : t + 1 < x.length) :
    (ewma alpha x).getD (t+1) none
      = emaStep alpha ((ewma alpha x).getD t none) (x.getD (t+1) none) :=
  ewmaAux_getD_succ alpha x none t ht

lemma emaStep_some (alpha s : ℚ) (x : Option ℚ) : ∃ v, emaStep alpha (some s) x = some v := by
  cases x <;> simp [emaStep]

lemma ewmaAux_some_state (alpha : ℚ) (xs : List (Option ℚ)) :
    ∀ s : ℚ, ∀ o ∈ ewmaAux alpha (some s) xs, ∃ v, o = some v := by
  induction xs with
  | nil => intro s o ho; simp [ewmaAux] at ho
  | cons x rest ih =>
    intro s o ho
    obtain ⟨v, hv⟩ := emaStep_some alpha s x
    simp only [ewmaAux, hv, List.mem_cons] at ho
    rcases ho with rfl | ho
    · exact ⟨v, rfl⟩
    · exact ih v o ho

lemma ewmaAux_one_all_some (xs : List (Option ℚ)) :
    (∀ o ∈ xs, ∃ v : ℚ, o = some v) → ∀ st, ewmaAux 1 st xs = xs := by
  induction xs with
  | nil => intro _ st; rfl
  | cons x rest ih =>
    intro h st
    obtain ⟨v, rfl⟩ := h x (by simp)
    have hstep : emaStep 1 st (some v) = some v := by
      cases st with
      | none => rfl
      | some s =>
        simp only [emaStep, Option.some.injEq]
        ring
    simp [ewmaAux, hstep, ih (fun o ho => h o (by simp [ho])) (some v)]

/-- Re-smoothing an EMA output with `alpha = 1` is the identity: undefined
entries of an EMA output form a prefix, and a unit-alpha EMA step preserves
every defined sample. -/
lemma ewma_one_ewma (alpha : ℚ) (xs : List (Option ℚ)) :
    ewma 1 (ewma alpha xs) = ewma alpha xs := by
  show ewmaAux 1 none (ewmaAux alpha none xs) = ewmaAux alpha none xs
  induction xs with
  | nil => rfl
  | cons x rest ih =>
    cases x with
    | none => simpa [ewmaAux, emaStep] using ih
    | some v =>
      have hall := ewmaAux_some_state alpha rest v
      simp [ewmaAux, emaStep, ewmaAux_one_all_some _ hall (some v)]

lemma ewma_one_map_some (xs : List ℚ) : ewma 1 (xs.map some) = xs.map some := by
  refine ewmaAux_one_all_some _ ?_ none
  intro o ho
  obtain ⟨v, _, rfl⟩ := List.mem_map.mp ho
  exact ⟨v, rfl⟩

/-- Claim C4: the smoother preserves length; the first output equals the first
input when defined; a defined sample advances the recurrence
`y[t] = alpha * x[t] + (1 - alpha) * y[t-1]`; an undefined sample carries the
previous output forward unchanged; and with `alpha = 1` the smoother is the
identity on sequences without undefined values. -/
theorem claim_C4_smoother (alpha : ℚ) (x : List (Option ℚ))
    (halpha0 : 0 < alpha) (halpha1 : alpha ≤ 1) :
    ((ewma alpha x).length = x.length)
    ∧ (∀ v : ℚ, x.getD 0 none = some v → (ewma alpha x).getD 0 none = some v)
    ∧ (∀ (t : ℕ) (s v : ℚ), x.getD (t+1) none = some v →
        (ewma alpha x).getD t none = some s →
        (ewma alpha x).getD (t+1) none = some (alpha * v + (1 - alpha) * s))
    ∧ (∀ t : ℕ, t + 1 < x.length → x.getD (t+1) none = none →
        (ewma alpha x).getD (t+1) none = (ewma alpha x).getD t none)
    ∧ (∀ xs : List ℚ, ewma 1 (xs.map some) = xs.map some) := by
  have hlen : (ewma alpha x).length = x.length := ewmaAux_length alpha x none
  have hbound : ∀ (t : ℕ) (v : ℚ), x.getD t none = some v → t < x.length := by
    intro t v hv
    by_contra hge
    rw [List.getD_eq_getElem?_getD, List.getElem?_eq_none (by omega)] at hv
    simp at hv
  refine ⟨hlen, ?_, ?_, ?_, ewma_one_map_some⟩
  · intro v hv
    cases x with
    | nil => simp at hv
    | cons c rest =>
      simp only [List.getD_cons_zero] at hv
      subst hv
      rfl
  · intro t s v hx hy
    have ht : t + 1 < x.length := hbound (t+1) v hx
    have hrec := ewma_getD_succ alpha x t ht
    rw [hx, hy] at hrec
    exact hrec
  · intro t ht hx
    have hrec := ewma_getD_succ alpha x t ht
    rw [hx] at hrec
    exact hrec

theorem claim_C4_smoother_witness :
    (ewma (1/2 : ℚ) [some 1, some 3]).length = ([some (1:ℚ), some 3]).length
    ∧ (ewma (1/2 : ℚ) [some 1, some 3]).getD 1 none
        = some ((1/2 : ℚ) * 3 + (1 - 1/2) * 1) := by
  refine ⟨(claim_C4_smoother (1/2) [some 1, some 3] (by norm_num) (by norm_num)).1, ?_⟩
  exact (claim_C4_smoother (1/2) [some 1, some 3] (by norm_num) (by norm_num)).2.2.1
    0 1 3 rfl rfl

/-! ### Lemmas about the decoder -/

lemma scanDigitRuns_le (name : String) : scanDigitRuns name ≤ 100 := by
  unfold scanDigitRuns
  cases h : (digitRuns name.data).reverse.find? (fun num => 70 ≤ num && num ≤ 100) with
  | none => simp
  | some num =>
    have hp := List.find?_some h
    simp only [Bool.and_eq_true, decide_eq_true_eq] at hp
    simpa using hp.2

/-- Claim C2: the decoder applies the rules in priority order with first match
winning (hyphen-digits-W, then P-digits in range, then reversed digit-run scan
in [70,100], then 90; span from W-digits floored at 1, else 1), and decodes the
three spec examples as stated. -/
theorem claim_C2_decoding :
    (get_percentile_from_name "O2-98W10" = 98 ∧ get_w_value_from_name "O2-98W10" = 10)
    ∧ (get_percentile_from_name "P-99W1" = 99 ∧ get_w_value_from_name "P-99W1" = 1)
    ∧ (get_percentile_from_name "mystery" = 90 ∧ get_w_value_from_name "mystery" = 1)
    ∧ (∀ (name : String) (v : ℕ), searchHyphenW name.data = some v →
        get_percentile_from_name name = v)
    ∧ (∀ (name : String) (v : ℕ), searchHyphenW name.data = none →
        searchPnum name.data = some v → v ≤ 100 → get_percentile_from_name name = v)
    ∧ (∀ (name : String) (v : ℕ), searchHyphenW name.data = none →
        searchPnum name.data = some v → ¬ v ≤ 100 →
        get_percentile_from_name name = scanDigitRuns name)
    ∧ (∀ name : String, searchHyphenW name.data = none → searchPnum name.data = none →
        get_percentile_from_name name = scanDigitRuns name)
    ∧ (∀ (name : String) (u : ℕ),
        (digitRuns name.data).reverse.find? (fun num => 70 ≤ num && num ≤ 100) = some u →
        scanDigitRuns name = u)
    ∧ (∀ name : String,
        (digitRuns name.data).reverse.find? (fun num => 70 ≤ num && num ≤ 100) = none →
        scanDigitRuns name = 90)
    ∧ (∀ (name : String) (v : ℕ), searchWnum name.data = some v →
        get_w_value_from_name name = max 1 v)
    ∧ (∀ name : String, searchWnum name.data = none → get_w_value_from_name name = 1) := by
  refine ⟨by decide, by decide, by decide, ?_, ?_, ?_, ?_, ?_, ?_, ?_, ?_⟩
  · intro name v h
    unfold get_percentile_from_name
    rw [h]
  · intro name v h1 h2 hle
    unfold get_percentile_from_name
    rw [h1, h2]
    simp [hle]
  · intro name v h1 h2 hgt
    unfold get_percentile_from_name
    rw [h1, h2]
    simp [hgt]
  · intro name h1 h2
    unfold get_percentile_from_name
    rw [h1, h2]
  · intro name u h
    unfold scanDigitRuns
    rw [h]
  · intro name h
    unfold scanDigitRuns
    rw [h]
  · intro name v h
    unfold get_w_value_from_name
    rw [h]
  · intro name h
    unfold get_w_value_from_name
    rw [h]

theorem claim_C2_decoding_witness :
    get_percentile_from_name "Q-5W" = 5
    ∧ get_percentile_from_name "ZP17Q" = 17
    ∧ get_w_value_from_name "QW0Z" = 1 := by
  refine ⟨?_, ?_, ?_⟩
  · exact claim_C2_decoding.2.2.2.1 "Q-5W" 5 (by decide)
  · exact claim_C2_decoding.2.2.2.2.1 "ZP17Q" 17 (by decide) (by decide) (by decide)
  · exact claim_C2_decoding.2.2.2.2.2.2.2.2.2.1 "QW0Z" 0 (by decide)

/-- Claim C3 counterexample: the hyphen-digits-W rule performs no range check,
so the decoded percentile can exceed 100. -/
theorem claim_C3_counterexample :
    get_percentile_from_name "-150W" = 150
    ∧ ¬ get_percentile_from_name "-150W" ≤ 100 := by decide

/-- Claim C3 (amended): the decoded span is always at least 1, and the decoded
percentile lies in [0, 100] whenever the name does not match the
hyphen-digits-W pattern; a hyphen-digits-W match returns its digit value
unvalidated. -/
theorem claim_C3_range (name : String) :
    1 ≤ get_w_value_from_name name
    ∧ (searchHyphenW name.data = none → get_percentile_from_name name ≤ 100) := by
  constructor
  · unfold get_w_value_from_name
    cases h : searchWnum name.data with
    | none => simp
    | some v => simp
  · intro h1
    unfold get_percentile_from_name
    rw [h1]
    cases h2 : searchPnum name.data with
    | some val =>
      by_cases hv : val ≤ 100
      · simp [hv]
      · simp only [hv, and_false, if_false, Nat.zero_le, true_and, if_neg]
        exact scanDigitRuns_le name
    | none => exact scanDigitRuns_le name

theorem claim_C3_range_witness :
    1 ≤ get_w_value_from_name "mystery" ∧ get_percentile_from_name "mystery" ≤ 100 :=
  ⟨(claim_C3_range "mystery").1, (claim_C3_range "mystery").2 (by decide)⟩

/-! ### The Pxx display recipe -/

lemma display_pxx_eq (name : String) (ema : List (Option ℚ)) (h : ema ≠ []) :
    display_pxx name ema =
      percentileQ ((ewma (2 / ((get_w_value_from_name name : ℚ) + 1)) ema).filterMap id)
        (get_percentile_from_name name : ℚ) := by
  by_cases hsm : (ewma (2 / ((get_w_value_from_name name : ℚ) + 1)) ema).filterMap id = []
  · simp [display_pxx, h, hsm, percentileQ]
  · simp [display_pxx, h, hsm]

/-- Claim C1: for a profile with a non-empty EMA sequence, the reported Pxx
equals the percentile, at the profile's decoded percentile, of the EMA
sequence re-smoothed a second time with `alpha = 2/(span+1)` for the decoded
span, after dropping undefined values (both sides are `none` exactly when the
twice-smoothed sequence is empty). -/
theorem claim_C1_pxx (name : String) (ema : List (Option ℚ)) (h : ema ≠ []) :
    display_pxx name ema =
      percentileQ ((ewma (2 / ((get_w_value_from_name name : ℚ) + 1)) ema).filterMap id)
        (get_percentile_from_name name : ℚ) :=
  display_pxx_eq name ema h

theorem claim_C1_pxx_witness :
    display_pxx "P-99W1" [some 1, some 2] =
      percentileQ ((ewma (2 / ((get_w_value_from_name "P-99W1" : ℚ) + 1))
          [some 1, some 2]).filterMap id)
        (get_percentile_from_name "P-99W1" : ℚ) :=
  claim_C1_pxx "P-99W1" [some 1, some 2] (List.cons_ne_nil _ _)

/-- Claim C10: when the decoded span is 1 the secondary smoothing uses
`alpha = 2/(1+1) = 1` and is the identity on the primary EMA sequence, so the
reported Pxx is the percentile of the primary EMA sequence itself after
dropping undefined values. -/
theorem claim_C10_span_one (name : String) (alpha : ℚ) (xs : List (Option ℚ))
    (h : get_w_value_from_name name = 1) :
    ewma (2 / ((get_w_value_from_name name : ℚ) + 1)) (ewma alpha xs) = ewma alpha xs
    ∧ display_pxx name (ewma alpha xs) =
        percentileQ ((ewma alpha xs).filterMap id) (get_percentile_from_name name : ℚ) := by
  have halpha : (2 : ℚ) / ((get_w_value_from_name name : ℚ) + 1) = 1 := by
    rw [h]
    norm_num
  have hid : ewma (2 / ((get_w_value_from_name name : ℚ) + 1)) (ewma alpha xs)
      = ewma alpha xs := by
    rw [halpha]
    exact ewma_one_ewma alpha xs
  refine ⟨hid, ?_⟩
  by_cases hemp : ewma alpha xs = []
  · rw [hemp]
    simp [display_pxx, percentileQ]
  · rw [display_pxx_eq name _ hemp, hid]

theorem claim_C10_span_one_witness :
    ewma (2 / ((get_w_value_from_name "P-99W1" : ℚ) + 1))
        (ewma (1/2) [some 1, none, some 2]) = ewma (1/2) [some 1, none, some 2]
    ∧ display_pxx "P-99W1" (ewma (1/2) [some 1, none, some 2]) =
        percentileQ ((ewma (1/2) [some 1, none, some 2]).filterMap id)
          (get_percentile_from_name "P-99W1" : ℚ) :=
  claim_C10_span_one "P-99W1" (1/2) [some 1, none, some 2] (by decide)

/-! ### Last-active-profile selection -/

lemma find?_eq_head_filter {α : Type} (f : α → Bool) (l : List α) :
    l.find? f = (l.filter f).head? := by
  induction l with
  | nil => rfl
  | cons a t ih =>
    by_cases h : f a
    · rw [List.find?_cons_of_pos _ h, List.filter_cons_of_pos h]
      rfl
    · rw [List.find?_cons_of_neg _ h, List.filter_cons_of_neg h]
      exact ih

lemma last_active_eq_getLast (ps : List (String × List (Option ℚ))) :
    last_active ps = (active_profiles ps).getLast? := by
  unfold last_active active_profiles
  rw [find?_eq_head_filter, List.filter_reverse, List.head?_reverse]

lemma active_idem (ps : List (String × List (Option ℚ))) :
    active_profiles (active_profiles ps) = active_profiles ps := by
  unfold active_profiles
  rw [List.filter_filter]
  simp

/-- Claim C6: the profile selected for daily aggregation and trend fitting is
the final entry, in configured order, among profiles with a non-empty EMA
sequence; profiles with an empty EMA sequence never shift this selection and
never contribute a Pxx entry. -/
theorem claim_C6_last_active :
    (∀ ps : List (String × List (Option ℚ)),
      last_active ps = (active_profiles ps).getLast?)
    ∧ (∀ ps : List (String × List (Option ℚ)),
      last_active ps = last_active (active_profiles ps))
    ∧ (∀ (ps : List (String × List (Option ℚ))) (e : String × Option ℚ),
        e ∈ pxx_by_profile ps → ∃ q ∈ ps, q.1 = e.1 ∧ q.2 ≠ []) := by
  refine ⟨last_active_eq_getLast, ?_, ?_⟩
  · intro ps
    rw [last_active_eq_getLast, last_active_eq_getLast, active_idem]
  · intro ps e he
    unfold pxx_by_profile at he
    obtain ⟨q, hq, rfl⟩ := List.mem_map.mp he
    unfold active_profiles at hq
    rw [List.mem_filter] at hq
    exact ⟨q, hq.1, rfl, by simpa using hq.2⟩

theorem claim_C6_last_active_witness :
    ∃ q ∈ [("a", [some (1:ℚ)]), ("b", ([] : List (Option ℚ)))],
      q.1 = ("a", display_pxx "a" [some (1:ℚ)]).1 ∧ q.2 ≠ [] :=
  claim_C6_last_active.2.2 [("a", [some 1]), ("b", [])]
    ("a", display_pxx "a" [some 1]) (by simp [pxx_by_profile, active_profiles])

/-! ### Empty-input guards -/

/-- Claim C8: percentile extraction over zero elements fails explicitly
(`none`, never a sentinel value), every engine call site guards for emptiness
first (each daily entry comes from a non-empty bucket whose percentile
succeeded, an empty re-smoothed sequence makes the Pxx display omit the
value), and fewer than two daily points produce no trend line. -/
theorem claim_C8_empty_guards :
    (∀ p : ℚ, percentileQ [] p = none)
    ∧ (∀ xs : List ℚ, xs ≠ [] → ∃ v, percentileQ xs 95 = some v)
    ∧ (∀ (k D : ℕ) (ys : List ℚ) (e : ℚ × ℚ), e ∈ daily_p95 k D ys →
        ∃ day : ℕ, day < D ∧ (ys.drop (day * k)).take k ≠ []
          ∧ percentileQ ((ys.drop (day * k)).take k) 95 = some e.2
          ∧ e.1 = (day : ℚ) + 1/2)
    ∧ (∀ (name : String) (ema : List (Option ℚ)),
        (ewma (2 / ((get_w_value_from_name name : ℚ) + 1)) ema).filterMap id = [] →
        display_pxx name ema = none)
    ∧ (∀ daily : List (ℚ × ℚ), daily.length < 2 → trend_of daily = none) := by
  refine ⟨?_, ?_, ?_, ?_, ?_⟩
  · intro p
    simp [percentileQ]
  · intro xs hxs
    unfold percentileQ
    rw [if_neg hxs, if_neg (by norm_num)]
    exact ⟨_, rfl⟩
  · intro k D ys e he
    unfold daily_p95 at he
    obtain ⟨day, hday, hfm⟩ := List.mem_filterMap.mp he
    rw [List.mem_range] at hday
    by_cases hempty : (ys.drop (day * k)).take k = []
    · rw [if_pos hempty] at hfm
      exact absurd hfm (by simp)
    · rw [if_neg hempty] at hfm
      obtain ⟨v, hv, hev⟩ := Option.map_eq_some'.mp hfm
      subst hev
      exact ⟨day, hday, hempty, hv, rfl⟩
  · intro name ema hsm
    by_cases hemp : ema = []
    · simp [display_pxx, hemp]
    · simp [display_pxx, hemp, hsm]
  · intro daily h
    unfold trend_of
    rw [if_neg (by omega)]

theorem claim_C8_empty_guards_witness :
    (∃ v, percentileQ [1, 2, 3] 95 = some v)
    ∧ trend_of [((1:ℚ)/2, (1:ℚ))] = none :=
  ⟨claim_C8_empty_guards.2.1 [1, 2, 3] (by decide),
   claim_C8_empty_guards.2.2.2.2 [((1:ℚ)/2, 1)] (by decide)⟩

/-! ### Order-statistic properties of the percentile -/

lemma percentileQ_min (xs : List ℚ) (h : xs ≠ []) :
    ∃ m, percentileQ xs 0 = some m ∧ m ∈ xs ∧ ∀ y ∈ xs, m ≤ y := by
  have hp := List.perm_insertionSort (· ≤ ·) xs
  have hs := List.sorted_insertionSort (· ≤ ·) xs
  cases hsort : List.insertionSort (· ≤ ·) xs with
  | nil =>
    exfalso
    apply h
    rw [hsort] at hp
    exact hp.symm.eq_nil
  | cons m s' =>
    rw [hsort] at hp hs
    refine ⟨m, ?_, hp.subset (List.mem_cons_self m s'), ?_⟩
    · simp only [percentileQ]
      rw [if_neg h, if_neg (by norm_num), hsort]
      norm_num
    · intro y hy
      rcases List.mem_cons.mp (hp.mem_iff.mpr hy) with rfl | hy''
      · exact le_refl y
      · exact List.rel_of_sorted_cons hs y hy''

lemma sorted_getD_last_ge (s : List ℚ) (hs : List.Sorted (· ≤ ·) s) :
    ∀ y ∈ s, y ≤ s.getD (s.length - 1) 0 := by
  induction s with
  | nil => intro y hy; simp at hy
  | cons a t ih =>
    intro y hy
    cases t with
    | nil =>
      simp only [List.mem_singleton] at hy
      subst hy
      simp
    | cons b t' =>
      have hidx : (a :: b :: t').length - 1 = ((b :: t').length - 1) + 1 := by
        simp
      rw [hidx, List.getD_cons_succ]
      rcases List.mem_cons.mp hy with rfl | hy'
      · have hmem : (b :: t').getD ((b :: t').length - 1) 0 ∈ (b :: t') := by
          rw [List.getD_eq_getElem _ _ (by simp)]
          exact List.getElem_mem _
        exact List.rel_of_sorted_cons hs _ hmem
      · exact ih hs.of_cons y hy'

lemma percentileQ_max (xs : List ℚ) (h : xs ≠ []) :
    ∃ M, percentileQ xs 100 = some M ∧ M ∈ xs ∧ ∀ y ∈ xs, y ≤ M := by
  have hp := List.perm_insertionSort (· ≤ ·) xs
  have hs := List.sorted_insertionSort (· ≤ ·) xs
  have hlen : (List.insertionSort (· ≤ ·) xs).length = xs.length := hp.length_eq
  have hn : 1 ≤ xs.length := List.length_pos.mpr h
  refine ⟨(List.insertionSort (· ≤ ·) xs).getD (xs.length - 1) 0, ?_, ?_, ?_⟩
  · simp only [percentileQ]
    rw [if_neg h, if_neg (by norm_num)]
    have hrank : (100:ℚ) * ((xs.length : ℚ) - 1) / 100 = ((xs.length - 1 : ℕ) : ℚ) := by
      push_cast [hn]
      ring
    rw [hrank, Int.floor_natCast, Int.ceil_natCast, Int.toNat_natCast]
    simp
  · have hmem : (List.insertionSort (· ≤ ·) xs).getD (xs.length - 1) 0
        ∈ List.insertionSort (· ≤ ·) xs := by
      rw [List.getD_eq_getElem _ _ (by omega)]
      exact List.getElem_mem _
    exact hp.subset hmem
  · intro y hy
    have hbig := sorted_getD_last_ge _ hs y (hp.mem_iff.mpr hy)
    rwa [hlen] at hbig

lemma percentileQ_perm (xs ys : List ℚ) (h : xs.Perm ys) (p : ℚ) :
    percentileQ xs p = percentileQ ys p := by
  rcases eq_or_ne xs [] with rfl | hx
  · rw [h.symm.eq_nil]
  · have hy : ys ≠ [] := fun hy => hx (by rw [hy] at h; exact h.eq_nil)
    have hsort : List.insertionSort (· ≤ ·) xs = List.insertionSort (· ≤ ·) ys :=
      List.eq_of_perm_of_sorted
        ((List.perm_insertionSort _ xs).trans (h.trans (List.perm_insertionSort _ ys).symm))
        (List.sorted_insertionSort _ xs) (List.sorted_insertionSort _ ys)
    simp only [percentileQ]
    rw [if_neg hx, if_neg hy, hsort, h.length_eq]

/-- Claim C9: on every non-empty sequence the percentile at 0 is the minimum
and at 100 the maximum, and the linear-interpolation percentile is invariant
under permutation of the input (it depends only on the multiset of values). -/
theorem claim_C9_percentile (xs : List ℚ) (h : xs ≠ []) :
    (∃ m, percentileQ xs 0 = some m ∧ m ∈ xs ∧ ∀ y ∈ xs, m ≤ y)
    ∧ (∃ M, percentileQ xs 100 = some M ∧ M ∈ xs ∧ ∀ y ∈ xs, y ≤ M)
    ∧ (∀ ys : List ℚ, xs.Perm ys → ∀ p : ℚ, percentileQ xs p = percentileQ ys p) :=
  ⟨percentileQ_min xs h, percentileQ_max xs h, fun ys hys p => percentileQ_perm xs ys hys p⟩

theorem claim_C9_percentile_witness :
    (∃ m, percentileQ [3, 1, 2] 0 = some m ∧ m ∈ [3, 1, 2] ∧ ∀ y ∈ [(3:ℚ), 1, 2], m ≤ y)
    ∧ percentileQ [3, 1, 2] 95 = percentileQ [1, 2, 3] 95 :=
  ⟨(claim_C9_percentile [3, 1, 2] (by decide)).1,
   (claim_C9_percentile [3, 1, 2] (by decide)).2.2 [1, 2, 3] (by decide) 95⟩

/-! ### Characterisation of the daily aggregate -/

lemma percentileQ_isSome_95 (xs : List ℚ) (hxs : xs ≠ []) :
    ∃ v, percentileQ xs 95 = some v := by
  unfold percentileQ
  rw [if_neg hxs, if_neg (by norm_num)]
  exact ⟨_, rfl⟩

lemma filterMap_range_single {β : Type} (D a : ℕ) (ha : a < D) (g : ℕ → Option β) :
    (List.range D).filterMap (fun x => if x = a then g x else none) = (g a).toList := by
  induction D with
  | zero => omega
  | succ D ih =>
    rw [List.range_succ, List.filterMap_append]
    rcases Nat.lt_succ_iff_lt_or_eq.mp ha with ha' | rfl
    · have hD : (fun x => if x = a then g x else none) D = none := if_neg (by omega)
      simp only [List.filterMap_cons, hD, List.filterMap_nil, List.append_nil]
      exact ih ha'
    · have h1 : (List.range a).filterMap (fun x => if x = a then g x else none) = [] :=
        List.filterMap_eq_nil_iff.mpr
          (fun x hx => if_neg (by rw [List.mem_range] at hx; omega))
      rw [h1, List.nil_append]
      cases hg : g a <;> simp [List.filterMap_cons, hg]

lemma filterMap_id_map_some (l : List ℚ) : (l.map some).filterMap id = l := by
  induction l with
  | nil => rfl
  | cons a t ih => simp [ih]

lemma daily_p95_filter (k D : ℕ) (ys : List ℚ) (day : ℕ) (hday : day < D) :
    (daily_p95 k D ys).filter (fun e => decide (e.1 = (day : ℚ) + 1/2)) =
      (if (ys.drop (day * k)).take k = [] then none
       else (percentileQ ((ys.drop (day * k)).take k) 95).map
         (fun v => ((day : ℚ) + 1/2, v))).toList := by
  simp only [daily_p95]
  rw [List.filter_filterMap]
  have hcong : (List.range D).filterMap
      (fun x => Option.filter (fun e => decide (e.1 = (day : ℚ) + 1/2))
        (if (ys.drop (x * k)).take k = [] then none
         else (percentileQ ((ys.drop (x * k)).take k) 95).map
           (fun v => ((x : ℚ) + 1/2, v))))
      = (List.range D).filterMap (fun x =>
          if x = day then
            (if (ys.drop (x * k)).take k = [] then none
             else (percentileQ ((ys.drop (x * k)).take k) 95).map
               (fun v => ((x : ℚ) + 1/2, v)))
          else none) := by
    refine List.filterMap_congr ?_
    intro x hx
    beta_reduce
    by_cases hxd : x = day
    · subst hxd
      rw [if_pos rfl]
      by_cases hslice : (ys.drop (x * k)).take k = []
      · rw [if_pos hslice]
        rfl
      · rw [if_neg hslice]
        cases hp : percentileQ ((ys.drop (x * k)).take k) 95 with
        | none => rfl
        | some v => simp [Option.filter]
    · rw [if_neg hxd]
      by_cases hslice : (ys.drop (x * k)).take k = []
      · rw [if_pos hslice]
        rfl
      · rw [if_neg hslice]
        cases hp : percentileQ ((ys.drop (x * k)).take k) 95 with
        | none => rfl
        | some v => simp [Option.filter, hxd]
  rw [hcong, filterMap_range_single D day hday]

lemma eval_percentile_1234 : percentileQ ([1, 2, 3, 4] : List ℚ) 95 = some (77/20) := by
  have hsort : List.insertionSort (fun a b => a ≤ b) ([1, 2, 3, 4] : List ℚ) = [1, 2, 3, 4] := by
    norm_num [List.insertionSort, List.orderedInsert]
  have hrank : (95 : ℚ) * (((([1, 2, 3, 4] : List ℚ).length) : ℚ) - 1) / 100 = 57/20 := by
    norm_num
  have hfloor : ⌊(57 : ℚ)/20⌋ = 2 := by norm_num
  have hceil : ⌈(57 : ℚ)/20⌉ = 3 := by
    rw [Int.ceil_eq_iff] <;> norm_num
  simp only [percentileQ]
  rw [if_neg (by simp), if_neg (by norm_num), hsort, hrank, hfloor, hceil]
  have hA : (([1, 2, 3, 4] : List ℚ).getD ((2:ℤ).toNat) 0) = 3 := rfl
  have hB : (([1, 2, 3, 4] : List ℚ).getD ((3:ℤ).toNat) 0) = 4 := rfl
  have hC : (((2:ℤ).toNat : ℕ) : ℚ) = 2 := rfl
  rw [hA, hB, hC]
  norm_num

lemma eval_percentile_5678 : percentileQ ([5, 6, 7, 8] : List ℚ) 95 = some (157/20) := by
  have hsort : List.insertionSort (fun a b => a ≤ b) ([5, 6, 7, 8] : List ℚ) = [5, 6, 7, 8] := by
    norm_num [List.insertionSort, List.orderedInsert]
  have hrank : (95 : ℚ) * (((([5, 6, 7, 8] : List ℚ).length) : ℚ) - 1) / 100 = 57/20 := by
    norm_num
  have hfloor : ⌊(57 : ℚ)/20⌋ = 2 := by norm_num
  have hceil : ⌈(57 : ℚ)/20⌉ = 3 := by
    rw [Int.ceil_eq_iff] <;> norm_num
  simp only [percentileQ]
  rw [if_neg (by simp), if_neg (by norm_num), hsort, hrank, hfloor, hceil]
  have hA : (([5, 6, 7, 8] : List ℚ).getD ((2:ℤ).toNat) 0) = 7 := rfl
  have hB : (([5, 6, 7, 8] : List ℚ).getD ((3:ℤ).toNat) 0) = 8 := rfl
  have hC : (((2:ℤ).toNat : ℕ) : ℚ) = 2 := rfl
  rw [hA, hB, hC]
  norm_num

lemma eval_daily :
    daily_p95 4 2 ([1, 2, 3, 4, 5, 6, 7, 8] : List ℚ)
      = [((1:ℚ)/2, 77/20), ((3:ℚ)/2, 157/20)] := by
  have h0 : (([1, 2, 3, 4, 5, 6, 7, 8] : List ℚ).drop (0 * 4)).take 4 = [1, 2, 3, 4] := rfl
  have h1 : (([1, 2, 3, 4, 5, 6, 7, 8] : List ℚ).drop (1 * 4)).take 4 = [5, 6, 7, 8] := rfl
  have hr : List.range 2 = [0, 1] := rfl
  simp only [daily_p95, hr, List.filterMap_cons, List.filterMap_nil]
  rw [h0, h1, if_neg (by simp), if_neg (by simp), eval_percentile_1234, eval_percentile_5678]
  norm_num

lemma eval_trend :
    trend_of [((1:ℚ)/2, 77/20), ((3:ℚ)/2, 157/20)] = some (4, 37/20) := by
  unfold trend_of
  rw [if_pos (by norm_num)]
  simp only [linfit, List.map_cons, List.map_nil, List.sum_cons, List.sum_nil,
    List.length_cons, List.length_nil]
  norm_num

/-- Claim C5: each day bucket `[day*k, min((day+1)*k, n))` that is non-empty
contributes exactly one aggregate entry, `(day + 0.5, P95 of the bucket)`, and
empty buckets contribute none; on the raw series `[1..8]` with 4 samples per
day and an identity EMA (`alpha = 1`, span 1) the aggregate is exactly the two
bucket P95 values and the fitted trend slope is positive. -/
theorem claim_C5_daily :
    (∀ (k D : ℕ) (ys : List ℚ) (day : ℕ), day < D →
      ((((ys.drop (day * k)).take k) = [] →
          (daily_p95 k D ys).filter (fun e => decide (e.1 = (day : ℚ) + 1/2)) = [])
       ∧ (((ys.drop (day * k)).take k) ≠ [] →
          ∃ v, percentileQ ((ys.drop (day * k)).take k) 95 = some v ∧
            (daily_p95 k D ys).filter (fun e => decide (e.1 = (day : ℚ) + 1/2))
              = [((day : ℚ) + 1/2, v)])))
    ∧ percentileQ [1, 2, 3, 4] 95 = some (77/20)
    ∧ percentileQ [5, 6, 7, 8] 95 = some (157/20)
    ∧ daily_p95 4 2 ((ewma 1 (([1, 2, 3, 4, 5, 6, 7, 8] : List ℚ).map some)).filterMap id)
        = [((1:ℚ)/2, 77/20), ((3:ℚ)/2, 157/20)]
    ∧ (∃ s b : ℚ, trend_of (daily_p95 4 2
          ((ewma 1 (([1, 2, 3, 4, 5, 6, 7, 8] : List ℚ).map some)).filterMap id))
            = some (s, b)
        ∧ 0 < s) := by
  have he : (ewma 1 (([1, 2, 3, 4, 5, 6, 7, 8] : List ℚ).map some)).filterMap id
      = [1, 2, 3, 4, 5, 6, 7, 8] := by
    rw [ewma_one_map_some, filterMap_id_map_some]
  refine ⟨?_, eval_percentile_1234, eval_percentile_5678, ?_, 4, 37/20, ?_, by norm_num⟩
  · intro k D ys day hday
    constructor
    · intro hempty
      rw [daily_p95_filter k D ys day hday, if_pos hempty]
      rfl
    · intro hne
      obtain ⟨v, hv⟩ := percentileQ_isSome_95 _ hne
      refine ⟨v, hv, ?_⟩
      rw [daily_p95_filter k D ys day hday, if_neg hne, hv]
      rfl
  · rw [he, eval_daily]
  · rw [he, eval_daily]
    exact eval_trend

theorem claim_C5_daily_witness :
    ∃ v, percentileQ ((([(1:ℚ)].drop (0 * 1)).take 1)) 95 = some v ∧
      (daily_p95 1 1 [(1:ℚ)]).filter (fun e => decide (e.1 = ((0:ℕ) : ℚ) + 1/2))
        = [(((0:ℕ) : ℚ) + 1/2, v)] :=
  (claim_C5_daily.1 1 1 [(1:ℚ)] 0 (by decide)).2 (by decide)

/-! ### Least-squares properties of the trend fit -/

lemma sse_expand (pts : List (ℚ × ℚ)) (a b : ℚ) :
    sse pts a b
      = (pts.map (fun q => q.2 * q.2)).sum - 2 * a * (pts.map (fun q => q.1 * q.2)).sum
        - 2 * b * (pts.map (fun q => q.2)).sum + a ^ 2 * (pts.map (fun q => q.1 * q.1)).sum
        + 2 * a * b * (pts.map (fun q => q.1)).sum + (pts.length : ℚ) * b ^ 2 := by
  induction pts with
  | nil => simp [sse]
  | cons q t ih =>
    simp only [sse, List.map_cons, List.sum_cons, List.length_cons] at ih ⊢
    push_cast
    linear_combination ih

lemma sum_center_mul (pts : List (ℚ × ℚ)) (A B : ℚ) :
    (pts.map (fun q => (q.1 - A) * (q.2 - B))).sum
      = (pts.map (fun q => q.1 * q.2)).sum - B * (pts.map (fun q => q.1)).sum
        - A * (pts.map (fun q => q.2)).sum + (pts.length : ℚ) * A * B := by
  induction pts with
  | nil => simp
  | cons q t ih =>
    simp only [List.map_cons, List.sum_cons, List.length_cons]
    push_cast
    linear_combination ih

lemma sum_center_sq (pts : List (ℚ × ℚ)) (A : ℚ) :
    (pts.map (fun q => (q.1 - A) ^ 2)).sum
      = (pts.map (fun q => q.1 * q.1)).sum - 2 * A * (pts.map (fun q => q.1)).sum
        + (pts.length : ℚ) * A ^ 2 := by
  induction pts with
  | nil => simp
  | cons q t ih =>
    simp only [List.map_cons, List.sum_cons, List.length_cons]
    push_cast
    linear_combination ih

lemma sq_sum_fst_le_len_mul (pts : List (ℚ × ℚ)) :
    ((pts.map (fun q => q.1)).sum) ^ 2
      ≤ (pts.length : ℚ) * (pts.map (fun q => q.1 * q.1)).sum := by
  induction pts with
  | nil => simp
  | cons q rest ih =>
    simp only [List.sum_cons, List.map_cons, List.length_cons]
    push_cast
    have hS : 0 ≤ (rest.map (fun q => q.1 * q.1)).sum := by
      apply List.sum_nonneg
      intro x hx
      obtain ⟨y, _, rfl⟩ := List.mem_map.mp hx
      exact mul_self_nonneg y.1
    rcases (Nat.cast_nonneg (α := ℚ) rest.length).lt_or_eq with hpos | h0
    · nlinarith [ih, sq_nonneg ((rest.length : ℚ) * q.1 - (rest.map (fun q => q.1)).sum),
        hS, hpos, mul_nonneg (le_of_lt hpos) (sub_nonneg.mpr ih)]
    · have hlen : rest.length = 0 := by exact_mod_cast h0.symm
      have hrest : rest = [] := List.length_eq_zero.mp hlen
      subst hrest
      norm_num [pow_two]

lemma linfit_eq (pts : List (ℚ × ℚ)) (s b : ℚ) (h : linfit pts = some (s, b)) :
    ((pts.length : ℚ) * (pts.map (fun q => q.1 * q.1)).sum
      - (pts.map (fun q => q.1)).sum * (pts.map (fun q => q.1)).sum) ≠ 0
    ∧ s = ((pts.length : ℚ) * (pts.map (fun q => q.1 * q.2)).sum
          - (pts.map (fun q => q.1)).sum * (pts.map (fun q => q.2)).sum)
        / ((pts.length : ℚ) * (pts.map (fun q => q.1 * q.1)).sum
          - (pts.map (fun q => q.1)).sum * (pts.map (fun q => q.1)).sum)
    ∧ b = ((pts.map (fun q => q.2)).sum - s * (pts.map (fun q => q.1)).sum)
        / (pts.length : ℚ) := by
  simp only [linfit] at h
  split at h
  · exact absurd h (by simp)
  · rename_i hd
    rw [Option.some.injEq, Prod.mk.injEq] at h
    obtain ⟨hs, hb⟩ := h
    refine ⟨hd, hs.symm, ?_⟩
    rw [← hs]
    exact hb.symm

lemma linfit_length_ne_zero (pts : List (ℚ × ℚ))
    (hd : ((pts.length : ℚ) * (pts.map (fun q => q.1 * q.1)).sum
      - (pts.map (fun q => q.1)).sum * (pts.map (fun q => q.1)).sum) ≠ 0) :
    (pts.length : ℚ) ≠ 0 := by
  cases pts with
  | nil => simp at hd
  | cons q t => exact Nat.cast_ne_zero.mpr (Nat.succ_ne_zero _)

lemma sse_min_scalar (n st sv stt stv svv a c s b : ℚ)
    (hn : n ≠ 0) (hd : n * stt - st * st ≠ 0)
    (hs : s = (n * stv - st * sv) / (n * stt - st * st))
    (hb : b = (sv - s * st) / n)
    (hdpos : 0 ≤ n * stt - st * st) (hnpos : 0 < n) :
    svv - 2 * s * stv - 2 * b * sv + s ^ 2 * stt + 2 * s * b * st + n * b ^ 2
      ≤ svv - 2 * a * stv - 2 * c * sv + a ^ 2 * stt + 2 * a * c * st + n * c ^ 2 := by
  have key : n * (svv - 2 * a * stv - 2 * c * sv + a ^ 2 * stt + 2 * a * c * st + n * c ^ 2)
      - n * (svv - 2 * s * stv - 2 * b * sv + s ^ 2 * stt + 2 * s * b * st + n * b ^ 2)
      = (n * stt - st * st) * (s - a) ^ 2 + ((s - a) * st + n * (b - c)) ^ 2 := by
    subst hb
    subst hs
    field_simp
    ring
  nlinarith [key, mul_nonneg hdpos (sq_nonneg (s - a)),
    sq_nonneg ((s - a) * st + n * (b - c)), hnpos]

lemma div_div_div_same (aa bb cc : ℚ) (hcc : cc ≠ 0) (hbb : bb ≠ 0) :
    (aa / cc) / (bb / cc) = aa / bb := by
  field_simp

lemma linfit_two_points (t0 v0 t1 v1 : ℚ) (h : t0 ≠ t1) :
    ∃ s b, linfit [(t0, v0), (t1, v1)] = some (s, b)
      ∧ s = (v1 - v0) / (t1 - t0) ∧ s * t0 + b = v0 ∧ s * t1 + b = v1 := by
  have hsub : t1 - t0 ≠ 0 := sub_ne_zero.mpr (Ne.symm h)
  have hdne : ((([(t0, v0), (t1, v1)] : List (ℚ × ℚ)).length : ℚ)
        * ([(t0, v0), (t1, v1)].map (fun q => q.1 * q.1)).sum
      - ([(t0, v0), (t1, v1)].map (fun q => q.1)).sum
        * ([(t0, v0), (t1, v1)].map (fun q => q.1)).sum) ≠ 0 := by
    have hval : ((([(t0, v0), (t1, v1)] : List (ℚ × ℚ)).length : ℚ)
          * ([(t0, v0), (t1, v1)].map (fun q => q.1 * q.1)).sum
        - ([(t0, v0), (t1, v1)].map (fun q => q.1)).sum
          * ([(t0, v0), (t1, v1)].map (fun q => q.1)).sum) = (t1 - t0) ^ 2 := by
      simp only [List.map_cons, List.map_nil, List.sum_cons, List.sum_nil,
        List.length_cons, List.length_nil]
      push_cast
      ring
    rw [hval]
    exact pow_ne_zero 2 hsub
  obtain ⟨s, b, hsb⟩ : ∃ s b, linfit [(t0, v0), (t1, v1)] = some (s, b) := by
    simp only [linfit]
    rw [if_neg hdne]
    exact ⟨_, _, rfl⟩
  obtain ⟨hd, hs, hb⟩ := linfit_eq _ _ _ hsb
  have e1 : (([(t0, v0), (t1, v1)] : List (ℚ × ℚ)).map (fun q => q.1)).sum = t0 + t1 := by
    simp
  have e2 : (([(t0, v0), (t1, v1)] : List (ℚ × ℚ)).map (fun q => q.2)).sum = v0 + v1 := by
    simp
  have e3 : (([(t0, v0), (t1, v1)] : List (ℚ × ℚ)).map (fun q => q.1 * q.1)).sum
      = t0 * t0 + t1 * t1 := by simp
  have e4 : (([(t0, v0), (t1, v1)] : List (ℚ × ℚ)).map (fun q => q.1 * q.2)).sum
      = t0 * v0 + t1 * v1 := by simp
  have e5 : ((([(t0, v0), (t1, v1)] : List (ℚ × ℚ)).length : ℚ)) = 2 := by simp
  simp only [e1, e2, e3, e4, e5] at hd hs hb
  refine ⟨s, b, hsb, ?_, ?_, ?_⟩
  · rw [hs, div_eq_div_iff hd hsub]
    ring
  · rw [hb, hs]
    field_simp
    ring
  · rw [hb, hs]
    field_simp
    ring

/-- Claim C7: over two points with distinct abscissae the fit passes exactly
through both points with slope `(v1-v0)/(t1-t0)`; in general a successful fit
has `slope = cov(t,v)/var(t)` and `intercept = mean(v) - slope*mean(t)`, and it
minimises the sum of squared residuals over all candidate lines (the
least-squares solution, equivalent to a degree-1 polynomial fit). -/
theorem claim_C7_trend :
    (∀ t0 v0 t1 v1 : ℚ, t0 ≠ t1 →
      ∃ s b, linfit [(t0, v0), (t1, v1)] = some (s, b)
        ∧ s = (v1 - v0) / (t1 - t0) ∧ s * t0 + b = v0 ∧ s * t1 + b = v1)
    ∧ (∀ (pts : List (ℚ × ℚ)) (s b : ℚ), linfit pts = some (s, b) →
        2 ≤ pts.length ∧ varL pts ≠ 0 ∧ s = covL pts / varL pts
          ∧ b = meanL (pts.map (fun q => q.2)) - s * meanL (pts.map (fun q => q.1)))
    ∧ (∀ (pts : List (ℚ × ℚ)) (s b : ℚ), linfit pts = some (s, b) →
        ∀ a c : ℚ, sse pts s b ≤ sse pts a c) := by
  refine ⟨linfit_two_points, ?_, ?_⟩
  · intro pts s b h
    obtain ⟨hd, hs, hb⟩ := linfit_eq pts s b h
    have hn := linfit_length_ne_zero pts hd
    have hvar : varL pts = ((pts.length : ℚ) * (pts.map (fun q => q.1 * q.1)).sum
        - (pts.map (fun q => q.1)).sum * (pts.map (fun q => q.1)).sum)
        / ((pts.length : ℚ) * (pts.length : ℚ)) := by
      unfold varL meanL
      rw [sum_center_sq, List.length_map]
      field_simp
      ring
    have hcov : covL pts = ((pts.length : ℚ) * (pts.map (fun q => q.1 * q.2)).sum
        - (pts.map (fun q => q.1)).sum * (pts.map (fun q => q.2)).sum)
        / ((pts.length : ℚ) * (pts.length : ℚ)) := by
      unfold covL meanL
      rw [sum_center_mul, List.length_map, List.length_map]
      field_simp
      ring
    refine ⟨?_, ?_, ?_, ?_⟩
    · rcases pts with _ | ⟨q, _ | ⟨r, t⟩⟩
      · simp at hd
      · simp at hd
      · simp only [List.length_cons]
        omega
    · rw [hvar]
      exact div_ne_zero hd (mul_ne_zero hn hn)
    · rw [hcov, hvar, div_div_div_same _ _ _ (mul_ne_zero hn hn) hd]
      exact hs
    · rw [hb]
      unfold meanL
      rw [List.length_map, List.length_map]
      field_simp
  · intro pts s b h a c
    obtain ⟨hd, hs, hb⟩ := linfit_eq pts s b h
    have hn := linfit_length_ne_zero pts hd
    have hnpos : (0:ℚ) < pts.length :=
      lt_of_le_of_ne (Nat.cast_nonneg _) (Ne.symm hn)
    have hCS := sq_sum_fst_le_len_mul pts
    have hdpos : 0 ≤ (pts.length : ℚ) * (pts.map (fun q => q.1 * q.1)).sum
        - (pts.map (fun q => q.1)).sum * (pts.map (fun q => q.1)).sum := by
      nlinarith [hCS]
    rw [sse_expand pts s b, sse_expand pts a c]
    exact sse_min_scalar (pts.length : ℚ) _ _ _ _ _ a c s b hn hd hs hb hdpos hnpos

theorem claim_C7_trend_witness :
    ∃ s b, linfit [((0:ℚ), (1:ℚ)), (1, 3)] = some (s, b)
      ∧ s = (3 - 1) / (1 - 0) ∧ s * 0 + b = 1 ∧ s * 1 + b = 3 :=
  claim_C7_trend.1 0 1 1 3 (by norm_num)

end NFit
